import Mathlib

/-!
Verification of the folder-synchronisation program (src/main.py).

The program keeps a replica directory tree in sync with a source tree:
`FolderSynch.synch` lists both trees with `get_content` (built on `os.walk`),
copies or creates every source entry that is missing or whose content digest
differs, and then deletes every replica entry that had no source counterpart.
`compare_hash` caches replica digests in the `files_hash` dictionary.

The embedding below models the filesystem as a finite tree of named nodes,
path strings exactly as the program manipulates them (including the global
`.replace("./", "")` of `get_content`), mutation of the replica tree by the
four mirror operations, the `files_hash` cache, and an explicit error channel
mirroring the `OSError`s Python raises.  The state also records the log lines
(`ops`) and instrumentation counters for digest computations, so that the
caching claims can be stated.  sha256 is modelled by the injective digest
`digest := id`: the program only ever compares digests for equality.
-/

namespace FolderSynch

/-- Errors mirroring the `OSError` subclasses the program can raise:
`FileNotFoundError`, `IsADirectoryError`, `FileExistsError`,
`NotADirectoryError`. -/
inductive Err where
  | fileNotFound
  | isADirectory
  | fileExists
  | notADirectory
  deriving DecidableEq, Repr

/-- One mutating action, i.e. one log line of the program
(`Created folder`, `Copied file`, `Removed file`, `Removed folder`),
carrying the path relative to the replica root. -/
inductive Op where
  | createdFolder (path : String)
  | copiedFile (path : String)
  | removedFile (path : String)
  | removedFolder (path : String)
  deriving DecidableEq, Repr

/-- Relative path of an operation. -/
def Op.path : Op → String
  | .createdFolder p => p
  | .copiedFile p => p
  | .removedFile p => p
  | .removedFolder p => p

mutual

/-- A filesystem node: a plain file with content and metadata (modelling the
mtime/permission metadata that `shutil.copy2` preserves and the program never
compares), or a directory with an ordered list of named children (the order
`os.scandir`/`os.walk` reports). -/
inductive Node where
  | file (content : String) (md : Nat)
  | dir (children : Entries) (md : Nat)

/-- Ordered named children of a directory. -/
inductive Entries where
  | nil
  | cons (name : String) (node : Node) (rest : Entries)

end

/-- Names of all children, in directory order. -/
def namesE : Entries → List String
  | .nil => []
  | .cons nm _ rest => nm :: namesE rest

/-- Names of the children that are directories, in directory order
(`folders` of `os.walk`). -/
def dirNamesE : Entries → List String
  | .nil => []
  | .cons nm (.dir _ _) rest => nm :: dirNamesE rest
  | .cons _ (.file _ _) rest => dirNamesE rest

/-- Names of the children that are plain files, in directory order
(`files` of `os.walk`). -/
def fileNamesE : Entries → List String
  | .nil => []
  | .cons _ (.dir _ _) rest => fileNamesE rest
  | .cons nm (.file _ _) rest => nm :: fileNamesE rest

/-- Look up a child by name (first match, as the OS resolves a component). -/
def lookupE : Entries → String → Option Node
  | .nil, _ => none
  | .cons nm n rest, k => if nm = k then some n else lookupE rest k

/-- Resolve a component path below a node. -/
def lookupPath (t : Node) (p : List String) : Option Node :=
  match p, t with
  | [], _ => some t
  | nm :: rest, .dir es _ =>
    match lookupE es nm with
    | some c => lookupPath c rest
    | none => none
  | _ :: _, .file _ _ => none

mutual

/-- Component paths of all entries below a directory node, in the order
`os.walk(root)` reports them: for each visited directory, first all of its
children (subdirectories before plain files, because the program evaluates
`files = folders + files`), then recursively the subtrees of its
subdirectories, in directory order.  `os.walk` of a plain-file path yields
nothing (its `scandir` error is ignored by default). -/
def walkPathsNode (p : List String) (n : Node) : List (List String) :=
  match n with
  | .file _ _ => []
  | .dir es _ =>
    (dirNamesE es ++ fileNamesE es).map (fun nm => p ++ [nm]) ++ walkPathsSub p es

/-- Subtree traversal of the directory children, in directory order. -/
def walkPathsSub (p : List String) (es : Entries) : List (List String) :=
  match es with
  | .nil => []
  | .cons nm (.dir cs dm) rest =>
    walkPathsNode (p ++ [nm]) (.dir cs dm) ++ walkPathsSub p rest
  | .cons _ (.file _ _) rest => walkPathsSub p rest

end

/-- Component paths of all entries below the root, in `os.walk` order. -/
def walkPaths (t : Node) : List (List String) := walkPathsNode [] t

/-- One pass of Python's `str.replace(s, "./", "")`: every non-overlapping
occurrence of the two-character substring `./` is removed, scanning left to
right. -/
def pyReplaceChars : List Char → List Char
  | [] => []
  | [c] => [c]
  | c1 :: c2 :: rest =>
    if c1 = '.' && c2 = '/' then pyReplaceChars rest
    else c1 :: pyReplaceChars (c2 :: rest)

/-- `s.replace("./", "")` on strings. -/
def pyReplace (s : String) : String := String.mk (pyReplaceChars s.data)

/-- Components joined with `/` (the separators `os.path.join` and
`os.path.relpath` produce on POSIX). -/
def joinComps : List String → String
  | [] => ""
  | [n] => n
  | n :: rest => n ++ "/" ++ joinComps rest

/-- The string the program appends to the listing for the entry at component
path `p`: `os.path.join(relative_root, name).replace("./", "")`.  For a
depth-one entry `relative_root` is `"."`, so the joined string is
`"./" ++ name`; for deeper entries it is the components joined with `/`.
The `replace` is applied to the whole string, not only to a leading marker. -/
def entryString (p : List String) : String :=
  match p with
  | [] => ""
  | [n] => String.mk (pyReplaceChars ('.' :: '/' :: n.data))
  | _ => String.mk (pyReplaceChars (joinComps p).data)

/-- `FolderSynch.get_content`: the relative-path strings of all entries below
the root, in `os.walk` order, after the `"./"` replacement. -/
def get_content (t : Node) : List String := (walkPaths t).map entryString

/-- `get_content` when the root may be missing: `os.walk` of a nonexistent or
unreadable root raises nothing (errors from `scandir` are ignored by default,
`onerror=None`), so the listing is empty. -/
def get_content_opt : Option Node → List String
  | none => []
  | some t => get_content t

/-- Split a path string at `/`, as the OS resolves the path strings the
program builds with `os.path.join`. -/
def splitPathChars : List Char → List (List Char)
  | [] => [[]]
  | '/' :: rest => [] :: splitPathChars rest
  | c :: rest =>
    match splitPathChars rest with
    | [] => [[c]]
    | g :: gs => (c :: g) :: gs

/-- Components of a relative path string. -/
def splitPath (s : String) : List String :=
  (splitPathChars s.data).map String.mk

/-- Look up a path below an optional root (a missing root resolves nothing). -/
def lookupOpt (o : Option Node) (p : List String) : Option Node :=
  match o with
  | none => none
  | some t => lookupPath t p

/-- `os.path.isdir`: false for a missing path. -/
def isDirPath (o : Option Node) (p : List String) : Bool :=
  match lookupOpt o p with
  | some (.dir _ _) => true
  | _ => false

/-- `os.path.isfile`: false for a missing path. -/
def isFilePath (o : Option Node) (p : List String) : Bool :=
  match lookupOpt o p with
  | some (.file _ _) => true
  | _ => false

/-- Open a path for reading: content and metadata of the file there,
`IsADirectoryError` for a directory, `FileNotFoundError` for a missing
path. -/
def readFileAt (o : Option Node) (p : List String) : Except Err (String × Nat) :=
  match lookupOpt o p with
  | some (.file c m) => .ok (c, m)
  | some (.dir _ _) => .error .isADirectory
  | none => .error .fileNotFound

/-- Remove the first child with the given name. -/
def removeE : Entries → String → Entries
  | .nil, _ => .nil
  | .cons nm n rest, k => if nm = k then rest else .cons nm n (removeE rest k)

/-- Replace the first child with the given name. -/
def replaceE : Entries → String → Node → Entries
  | .nil, _, _ => .nil
  | .cons nm n rest, k, n2 =>
    if nm = k then .cons nm n2 rest else .cons nm n (replaceE rest k n2)

/-- Append a new child at the end of the directory order. -/
def appendE : Entries → String → Node → Entries
  | .nil, nm, n => .cons nm n .nil
  | .cons nm0 n0 rest, nm, n => .cons nm0 n0 (appendE rest nm n)

/-- Write a file (the destination side of `shutil.copy2`): the parent chain
must exist and consist of directories, an existing file is overwritten, a
directory at the destination raises `IsADirectoryError`, a missing final
component is created.  Content and metadata are both written (`copy2`
preserves mtime and permissions). -/
def writeFileE (es : Entries) (p : List String) (c : String) (m : Nat) :
    Except Err Entries :=
  match p with
  | [] => .error .fileNotFound
  | [nm] =>
    match lookupE es nm with
    | some (.file _ _) => .ok (replaceE es nm (.file c m))
    | some (.dir _ _) => .error .isADirectory
    | none => .ok (appendE es nm (.file c m))
  | nm :: rest =>
    match lookupE es nm with
    | some (.dir cs dm) =>
      match writeFileE cs rest c m with
      | .ok cs2 => .ok (replaceE es nm (.dir cs2 dm))
      | .error e => .error e
    | some (.file _ _) => .error .notADirectory
    | none => .error .fileNotFound

/-- `shutil.copy2` destination write below the replica root. -/
def writeFile (t : Node) (p : List String) (c : String) (m : Nat) :
    Except Err Node :=
  match t with
  | .dir es dm =>
    match writeFileE es p c m with
    | .ok es2 => .ok (.dir es2 dm)
    | .error e => .error e
  | .file _ _ => .error .notADirectory

/-- `os.makedirs`: creates missing intermediate directories, raises
`FileExistsError` if the final path already exists and `NotADirectoryError`
if a file is in the way. -/
def makeDirsE (es : Entries) (p : List String) : Except Err Entries :=
  match p with
  | [] => .error .fileExists
  | [nm] =>
    match lookupE es nm with
    | some _ => .error .fileExists
    | none => .ok (appendE es nm (.dir .nil 0))
  | nm :: rest =>
    match lookupE es nm with
    | some (.dir cs dm) =>
      match makeDirsE cs rest with
      | .ok cs2 => .ok (replaceE es nm (.dir cs2 dm))
      | .error e => .error e
    | some (.file _ _) => .error .notADirectory
    | none =>
      match makeDirsE .nil rest with
      | .ok cs2 => .ok (appendE es nm (.dir cs2 0))
      | .error e => .error e

/-- `os.makedirs` below the replica root. -/
def makeDirs (t : Node) (p : List String) : Except Err Node :=
  match t with
  | .dir es dm =>
    match makeDirsE es p with
    | .ok es2 => .ok (.dir es2 dm)
    | .error e => .error e
  | .file _ _ => .error .notADirectory

/-- `os.remove`: deletes a single file; `FileNotFoundError` for a missing
path, `IsADirectoryError` for a directory. -/
def removePathE (es : Entries) (p : List String) : Except Err Entries :=
  match p with
  | [] => .error .fileNotFound
  | [nm] =>
    match lookupE es nm with
    | some (.file _ _) => .ok (removeE es nm)
    | some (.dir _ _) => .error .isADirectory
    | none => .error .fileNotFound
  | nm :: rest =>
    match lookupE es nm with
    | some (.dir cs dm) =>
      match removePathE cs rest with
      | .ok cs2 => .ok (replaceE es nm (.dir cs2 dm))
      | .error e => .error e
    | some (.file _ _) => .error .notADirectory
    | none => .error .fileNotFound

/-- `os.remove` below the replica root. -/
def removePath (t : Node) (p : List String) : Except Err Node :=
  match t with
  | .dir es dm =>
    match removePathE es p with
    | .ok es2 => .ok (.dir es2 dm)
    | .error e => .error e
  | .file _ _ => .error .notADirectory

/-- `shutil.rmtree`: deletes a directory and everything beneath it;
`FileNotFoundError` for a missing path, `NotADirectoryError` for a file. -/
def rmTreeE (es : Entries) (p : List String) : Except Err Entries :=
  match p with
  | [] => .error .fileNotFound
  | [nm] =>
    match lookupE es nm with
    | some (.dir _ _) => .ok (removeE es nm)
    | some (.file _ _) => .error .notADirectory
    | none => .error .fileNotFound
  | nm :: rest =>
    match lookupE es nm with
    | some (.dir cs dm) =>
      match rmTreeE cs rest with
      | .ok cs2 => .ok (replaceE es nm (.dir cs2 dm))
      | .error e => .error e
    | some (.file _ _) => .error .notADirectory
    | none => .error .fileNotFound

/-- `shutil.rmtree` below the replica root. -/
def rmTree (t : Node) (p : List String) : Except Err Node :=
  match t with
  | .dir es dm =>
    match rmTreeE es p with
    | .ok es2 => .ok (.dir es2 dm)
    | .error e => .error e
  | .file _ _ => .error .notADirectory

/-- Content digest.  The program uses `hashlib.file_digest(file, "sha256")`
and only ever compares digests for equality; sha256 is modelled by the
injective digest that is the content itself. -/
def digest (s : String) : String := s

/-- Lookup in the `files_hash` dictionary (first match). -/
def lookupAssoc : List (String × String) → String → Option String
  | [], _ => none
  | (a, b) :: rest, k => if a = k then some b else lookupAssoc rest k

/-- Python `list.remove`: drop the first occurrence. -/
def removeFirst : List String → String → List String
  | [], _ => []
  | x :: rest, k => if x = k then rest else x :: removeFirst rest k

/-- The mutable state of one `FolderSynch` instance: the replica tree on
disk, the `files_hash` cache (keyed by the path relative to the replica root,
which is in bijection with the absolute key the program uses), the log of
mutating actions (`ops`), and instrumentation recording each digest actually
computed from the replica (`repHashes`), each digest computed from the source
(`srcHashes`), and each completed fingerprint comparison (`compares`). -/
structure St where
  rep : Node
  files_hash : List (String × String)
  ops : List Op
  repHashes : List String
  srcHashes : List String
  compares : List String

/-- `FolderSynch.get_hash`: open the file at `p` below `o` and digest its
content. -/
def get_hash (o : Option Node) (p : List String) : Except Err String :=
  match readFileAt o p with
  | .ok cm => .ok (digest cm.1)
  | .error e => .error e

/-- `FolderSynch.compare_hash`: if the replica path is not in `files_hash`,
digest the replica file now and store it (recorded in `repHashes`); then
digest the source file afresh (recorded in `srcHashes`) and compare it with
the cached replica digest (the completed comparison is recorded in
`compares`).  Errors propagate in program order: the replica read happens
before the source read, and the dictionary assignment has already happened
when the source read fails. -/
def compare_hash (src : Option Node) (s : String) (st : St) :
    St × Except Err Bool :=
  match lookupAssoc st.files_hash s with
  | none =>
    match get_hash (some st.rep) (splitPath s) with
    | .error e => (st, .error e)
    | .ok h =>
      match get_hash src (splitPath s) with
      | .error e =>
        ({ st with
            files_hash := st.files_hash ++ [(s, h)],
            repHashes := st.repHashes ++ [s] }, .error e)
      | .ok hs =>
        ({ st with
            files_hash := st.files_hash ++ [(s, h)],
            repHashes := st.repHashes ++ [s],
            srcHashes := st.srcHashes ++ [s],
            compares := st.compares ++ [s] }, .ok (hs == h))
  | some h =>
    match get_hash src (splitPath s) with
    | .error e => (st, .error e)
    | .ok hs =>
      ({ st with
          srcHashes := st.srcHashes ++ [s],
          compares := st.compares ++ [s] }, .ok (hs == h))

/-- `FolderSynch.copy_file`: if the source path is a directory, create the
replica directory with `os.makedirs` and log `Created folder`; otherwise copy
the file with `shutil.copy2` (content and metadata) and log `Copied file`.
Note that `files_hash` is not touched. -/
def copy_file (src : Option Node) (s : String) (st : St) : St × Option Err :=
  if isDirPath src (splitPath s) then
    match makeDirs st.rep (splitPath s) with
    | .ok r => ({ st with rep := r, ops := st.ops ++ [.createdFolder s] }, none)
    | .error e => (st, some e)
  else
    match readFileAt src (splitPath s) with
    | .error e => (st, some e)
    | .ok cm =>
      match writeFile st.rep (splitPath s) cm.1 cm.2 with
      | .ok r => ({ st with rep := r, ops := st.ops ++ [.copiedFile s] }, none)
      | .error e => (st, some e)

/-- `FolderSynch.remove_file`: `shutil.rmtree` for a directory (logging
`Removed folder`), `os.remove` otherwise (logging `Removed file`); a path
that no longer exists is not a directory, so `os.remove` raises
`FileNotFoundError`. -/
def remove_file (s : String) (st : St) : St × Option Err :=
  if isDirPath (some st.rep) (splitPath s) then
    match rmTree st.rep (splitPath s) with
    | .ok r => ({ st with rep := r, ops := st.ops ++ [.removedFolder s] }, none)
    | .error e => (st, some e)
  else
    match removePath st.rep (splitPath s) with
    | .ok r => ({ st with rep := r, ops := st.ops ++ [.removedFile s] }, none)
    | .error e => (st, some e)

/-- The first loop of `FolderSynch.synch` over the source listing: an entry
absent from the working replica list is copied/created (and, by `continue`,
not removed from the working list); a present entry is fingerprint-compared
only if its source path is a plain file, copied on mismatch, and then removed
(first occurrence) from the working replica list.  An uncaught error aborts
the cycle, returning the state reached so far. -/
def synchLoop1 (src : Option Node) (fs : List String) (repList : List String)
    (st : St) : List String × St × Option Err :=
  match fs with
  | [] => (repList, st, none)
  | s :: rest =>
    if repList.contains s then
      if isFilePath src (splitPath s) then
        match compare_hash src s st with
        | (st1, .error e) => (repList, st1, some e)
        | (st1, .ok b) =>
          if b then synchLoop1 src rest (removeFirst repList s) st1
          else
            match copy_file src s st1 with
            | (st2, some e) => (repList, st2, some e)
            | (st2, none) => synchLoop1 src rest (removeFirst repList s) st2
      else synchLoop1 src rest (removeFirst repList s) st
    else
      match copy_file src s st with
      | (st1, some e) => (repList, st1, some e)
      | (st1, none) => synchLoop1 src rest repList st1

/-- The second loop of `FolderSynch.synch`: remove every leftover working
replica entry, aborting on an uncaught error. -/
def synchLoop2 (fs : List String) (st : St) : St × Option Err :=
  match fs with
  | [] => (st, none)
  | s :: rest =>
    match remove_file s st with
    | (st1, some e) => (st1, some e)
    | (st1, none) => synchLoop2 rest st1

/-- `FolderSynch.synch`, one reconciliation cycle: list source and replica,
run the copy/create loop over the source listing, then remove the leftover
replica entries (the program guards the second loop with `replica != []`,
which is equivalent to looping over the possibly-empty list).  The final
`start_scheduler` re-arms the timer and is modelled by `runCycles`. -/
def synch (src : Option Node) (st : St) : St × Option Err :=
  match synchLoop1 src (get_content_opt src) (get_content st.rep) st with
  | (_, st1, some e) => (st1, some e)
  | (repLeft, st1, none) => synchLoop2 repLeft st1

/-- `n` consecutive reconciliation cycles with an unchanged source tree.  An
uncaught error terminates the scheduling loop (the timer is re-armed only
when `synch` returns normally). -/
def runCycles (n : Nat) (src : Option Node) (st : St) : St × Option Err :=
  match n with
  | 0 => (st, none)
  | n + 1 =>
    match synch src st with
    | (st1, some e) => (st1, some e)
    | (st1, none) => runCycles n src st1

/-- A fresh `FolderSynch` instance over a given replica tree: empty
`files_hash`, no log lines, no digests computed yet. -/
def initSt (rep : Node) : St :=
  { rep := rep, files_hash := [], ops := [], repHashes := [],
    srcHashes := [], compares := [] }

/-- Source-driven operations: `Created folder` and `Copied file`. -/
def Op.isCopyOrCreate : Op → Bool
  | .createdFolder _ => true
  | .copiedFile _ => true
  | .removedFile _ => false
  | .removedFolder _ => false

/-- Replica-driven operations: `Removed file` and `Removed folder`. -/
def Op.isRemove : Op → Bool
  | .createdFolder _ => false
  | .copiedFile _ => false
  | .removedFile _ => true
  | .removedFolder _ => true

/-- Whether the two-character substring `./` occurs anywhere in the string. -/
def hasDS : List Char → Bool
  | [] => false
  | [_] => false
  | c1 :: c2 :: rest => (c1 = '.' && c2 = '/') || hasDS (c2 :: rest)

/-- No two occurrences of the same element. -/
def nodupB : List String → Bool
  | [] => true
  | x :: rest => !rest.contains x && nodupB rest

mutual

/-- Every directory of the tree has pairwise-distinct child names, as every
real directory listed by `os.scandir` does. -/
def uniqN : Node → Bool
  | .file _ _ => true
  | .dir es _ => nodupB (namesE es) && uniqE es

/-- `uniqN` for every child. -/
def uniqE : Entries → Bool
  | .nil => true
  | .cons _ n rest => uniqN n && uniqE rest

end

/-- `q` lies strictly below `p` in the tree: `q` extends `p` by at least one
component. -/
def descends (q p : List String) : Prop := ∃ s, s ≠ [] ∧ q = p ++ s

/-- Invariant for the fingerprint cache: a replica path has been digested
from disk at most once, and only if it now has a cache entry. -/
def cacheBound (st : St) : Prop :=
  ∀ k, st.repHashes.count k ≤ if (lookupAssoc st.files_hash k).isSome then 1 else 0

/-- Every completed fingerprint comparison digested the source file afresh:
the two instrumentation streams coincide. -/
def srcFresh (st : St) : Prop := st.srcHashes = st.compares

/-- C1 failing input, source side: the source root contains a directory
named `x`. -/
def c1Source : Node := .dir (.cons "x" (.dir .nil 0) .nil) 0

/-- C1 failing input, replica side: the replica root contains a plain file
named `x` with content `a`. -/
def c1State : St := initSt (.dir (.cons "x" (.file "a" 0) .nil) 0)

/-- C2/C3 failing input, source side: `a.txt` with content `hi`. -/
def c2Source : Node := .dir (.cons "a.txt" (.file "hi" 0) .nil) 0

/-- C2/C3 failing input, replica side: `a.txt` with content `bye`. -/
def c2State : St := initSt (.dir (.cons "a.txt" (.file "bye" 5) .nil) 0)

/-- C5 failing input, source side: an empty source root. -/
def c5Source : Node := .dir .nil 0

/-- C5 failing input, replica side: `dir/` containing `dir/file`. -/
def c5State : St :=
  initSt (.dir (.cons "dir" (.dir (.cons "file" (.file "z" 0) .nil) 0) .nil) 0)

/-- C4 counterexample replica: a single file `a.txt`. -/
def c4State : St := initSt (.dir (.cons "a.txt" (.file "x" 0) .nil) 0)

/-- C7 counterexample, source side: a directory named `ax`. -/
def c7Source : Node := .dir (.cons "ax" (.dir .nil 0) .nil) 0

/-- C7 counterexample, replica side: a directory `a.` containing a directory
`x` (listed as `ax` after the `"./"` replacement), and a directory `ax`. -/
def c7State : St :=
  initSt (.dir (.cons "a." (.dir (.cons "x" (.dir .nil 0) .nil) 0)
    (.cons "ax" (.dir .nil 0) .nil)) 0)

/-- C9 counterexample: a directory named `a.` containing a file `child`. -/
def c9Tree : Node :=
  .dir (.cons "a." (.dir (.cons "child" (.file "c" 0) .nil) 0) .nil) 0

/-- C1: convergence fails on the code.  With a directory `x` in the source
and a plain file `x` in the replica, the cycle completes without error and
performs no operation at all, leaving the replica file `x` (content `a`) in
place while the source holds a directory `x`: the replica's entry set does
not equal the source's after the cycle. -/
theorem c1_eval :
    (synch (some c1Source) c1State).2 = none ∧
    (synch (some c1Source) c1State).1.ops = [] ∧
    lookupPath c1Source ["x"] = some (.dir .nil 0) ∧
    lookupPath (synch (some c1Source) c1State).1.rep ["x"] =
      some (.file "a" 0) :=
  ⟨rfl, rfl, rfl, rfl⟩

/-- C2: idempotence fails on the code.  With source `a.txt = hi` and replica
`a.txt = bye`, the first cycle performs the Update copy, but because
`copy_file` never refreshes `files_hash`, the second cycle — with the source
unchanged — performs another copy instead of being a no-op. -/
theorem c2_eval :
    (runCycles 1 (some c2Source) c2State).1.ops = [.copiedFile "a.txt"] ∧
    (runCycles 2 (some c2Source) c2State).2 = none ∧
    (runCycles 2 (some c2Source) c2State).1.ops =
      [.copiedFile "a.txt", .copiedFile "a.txt"] :=
  ⟨rfl, rfl, rfl⟩

/-- C3: the cache is not overwritten on recopy.  After the Update copy of
`a.txt` the replica file holds the new content `hi`, but `files_hash` still
maps the path to the digest of the replaced content `bye`, which differs
from the digest of the newly copied content. -/
theorem c3_eval :
    (synch (some c2Source) c2State).2 = none ∧
    (synch (some c2Source) c2State).1.ops = [.copiedFile "a.txt"] ∧
    lookupPath (synch (some c2Source) c2State).1.rep ["a.txt"] =
      some (.file "hi" 0) ∧
    (synch (some c2Source) c2State).1.files_hash = [("a.txt", digest "bye")] ∧
    digest "bye" ≠ digest "hi" :=
  ⟨rfl, rfl, rfl, rfl, by decide⟩

/-- C5: the cycle does not complete without error.  With `dir/` removed from
the source while the replica still holds `dir/file`, the removal loop first
`rmtree`s `dir` (one `Removed folder` log line, deleting the whole subtree)
and then calls `os.remove` on the already-deleted `dir/file`, which raises
`FileNotFoundError`. -/
theorem c5_eval :
    (synch (some c5Source) c5State).2 = some .fileNotFound ∧
    (synch (some c5Source) c5State).1.ops = [.removedFolder "dir"] ∧
    get_content (synch (some c5Source) c5State).1.rep = [] :=
  ⟨rfl, rfl, rfl⟩

/-- C4 counterexample: for a missing root, `get_content` does not fail — it
silently returns the empty listing (`os.walk` ignores the `scandir` error),
and a cycle whose source root is missing therefore completes without error
and deletes the replica's contents. -/
theorem c4_counterexample :
    get_content_opt none = [] ∧
    (synch none c4State).2 = none ∧
    (synch none c4State).1.ops = [.removedFile "a.txt"] :=
  ⟨rfl, rfl, rfl⟩

/-- C7 counterexample: the source directory `ax` is present (by name) in the
replica listing, yet the cycle performs an operation on it.  The replica
directory `a.` containing `x` is also listed as `ax` (the `"./"` replacement
collides), the matching iteration removes the colliding occurrence from the
working list, and the removal loop then deletes the replica's real `ax`
directory even though the source still has it. -/
theorem c7_counterexample :
    lookupPath c7Source ["ax"] = some (.dir .nil 0) ∧
    "ax" ∈ get_content c7Source ∧
    "ax" ∈ get_content c7State.rep ∧
    (synch (some c7Source) c7State).2 = none ∧
    (synch (some c7Source) c7State).1.ops =
      [.removedFolder "a.", .removedFolder "ax"] ∧
    lookupPath (synch (some c7Source) c7State).1.rep ["ax"] = none :=
  ⟨rfl, by decide, by decide, rfl, rfl, rfl⟩

/-- C9 counterexample: `get_content` does not only strip a leading `./`
marker.  For a directory named `a.` with a child `child`, the relative path
`a./child` is listed as `achild` — the interior `./` is removed as well. -/
theorem c9_counterexample :
    get_content c9Tree = ["a.", "achild"] ∧
    "a./child" ∉ get_content c9Tree :=
  ⟨rfl, by decide⟩

/-- `copy_file` appends to the log only copy/create operations, all carrying
its own path, and leaves the rest of the log alone. -/
theorem copy_file_ops (src : Option Node) (s : String) (st : St) :
    ∃ ext, (copy_file src s st).1.ops = st.ops ++ ext ∧
      ∀ o ∈ ext, o.isCopyOrCreate = true ∧ o.path = s := by
  unfold copy_file
  split
  · split
    · exact ⟨[.createdFolder s], rfl, by simp [Op.isCopyOrCreate, Op.path]⟩
    · exact ⟨[], by simp, by simp⟩
  · split
    · exact ⟨[], by simp, by simp⟩
    · split
      · exact ⟨[.copiedFile s], rfl, by simp [Op.isCopyOrCreate, Op.path]⟩
      · exact ⟨[], by simp, by simp⟩

/-- `copy_file` does not touch the fingerprint cache or the digest
instrumentation. -/
theorem copy_file_cache (src : Option Node) (s : String) (st : St) :
    (copy_file src s st).1.files_hash = st.files_hash ∧
    (copy_file src s st).1.repHashes = st.repHashes ∧
    (copy_file src s st).1.srcHashes = st.srcHashes ∧
    (copy_file src s st).1.compares = st.compares := by
  unfold copy_file
  split
  · split <;> exact ⟨rfl, rfl, rfl, rfl⟩
  · split
    · exact ⟨rfl, rfl, rfl, rfl⟩
    · split <;> exact ⟨rfl, rfl, rfl, rfl⟩

/-- `remove_file` appends to the log only removal operations, all carrying
its own path. -/
theorem remove_file_ops (s : String) (st : St) :
    ∃ ext, (remove_file s st).1.ops = st.ops ++ ext ∧
      ∀ o ∈ ext, o.isRemove = true ∧ o.path = s := by
  unfold remove_file
  split
  · split
    · exact ⟨[.removedFolder s], rfl, by simp [Op.isRemove, Op.path]⟩
    · exact ⟨[], by simp, by simp⟩
  · split
    · exact ⟨[.removedFile s], rfl, by simp [Op.isRemove, Op.path]⟩
    · exact ⟨[], by simp, by simp⟩

/-- `remove_file` does not touch the fingerprint cache or the digest
instrumentation. -/
theorem remove_file_cache (s : String) (st : St) :
    (remove_file s st).1.files_hash = st.files_hash ∧
    (remove_file s st).1.repHashes = st.repHashes ∧
    (remove_file s st).1.srcHashes = st.srcHashes ∧
    (remove_file s st).1.compares = st.compares := by
  unfold remove_file
  split
  · split <;> exact ⟨rfl, rfl, rfl, rfl⟩
  · split <;> exact ⟨rfl, rfl, rfl, rfl⟩

/-- `compare_hash` leaves the log and the replica tree unchanged. -/
theorem compare_hash_state (src : Option Node) (s : String) (st : St) :
    (compare_hash src s st).1.ops = st.ops ∧
    (compare_hash src s st).1.rep = st.rep := by
  unfold compare_hash
  split
  · split
    · exact ⟨rfl, rfl⟩
    · split <;> exact ⟨rfl, rfl⟩
  · split <;> exact ⟨rfl, rfl⟩

/-- The copy/create loop appends only copy/create operations to the log. -/
theorem synchLoop1_ops (src : Option Node) (fs : List String) :
    ∀ repList st, ∃ ext,
      (synchLoop1 src fs repList st).2.1.ops = st.ops ++ ext ∧
      ∀ o ∈ ext, o.isCopyOrCreate = true := by
  induction fs with
  | nil => exact fun repList st => ⟨[], by simp [synchLoop1], by simp⟩
  | cons s rest ih =>
    intro repList st
    unfold synchLoop1
    split
    · split
      · split
        · rename_i st1 e heq
          have hst1 : st1.ops = st.ops := by
            have := (compare_hash_state src s st).1
            rw [heq] at this
            exact this
          exact ⟨[], by simp [hst1], by simp⟩
        · rename_i st1 b heq
          have hst1 : st1.ops = st.ops := by
            have := (compare_hash_state src s st).1
            rw [heq] at this
            exact this
          split
          · obtain ⟨ext, hops, hall⟩ := ih (removeFirst repList s) st1
            exact ⟨ext, by rw [hops, hst1], hall⟩
          · split
            · rename_i st2 e heq2
              obtain ⟨e1, hops1, hall1⟩ := copy_file_ops src s st1
              rw [heq2] at hops1
              exact ⟨e1, by simpa [hst1] using hops1,
                fun o ho => (hall1 o ho).1⟩
            · rename_i st2 heq2
              obtain ⟨e1, hops1, hall1⟩ := copy_file_ops src s st1
              rw [heq2] at hops1
              obtain ⟨e2, hops2, hall2⟩ := ih (removeFirst repList s) st2
              refine ⟨e1 ++ e2, ?_, ?_⟩
              · rw [hops2, hops1, hst1, List.append_assoc]
              · intro o ho
                rcases List.mem_append.1 ho with h | h
                · exact (hall1 o h).1
                · exact hall2 o h
      · exact ih (removeFirst repList s) st
    · split
      · rename_i st1 e heq
        obtain ⟨e1, hops1, hall1⟩ := copy_file_ops src s st
        rw [heq] at hops1
        exact ⟨e1, hops1, fun o ho => (hall1 o ho).1⟩
      · rename_i st1 heq
        obtain ⟨e1, hops1, hall1⟩ := copy_file_ops src s st
        rw [heq] at hops1
        obtain ⟨e2, hops2, hall2⟩ := ih repList st1
        refine ⟨e1 ++ e2, ?_, ?_⟩
        · rw [hops2, hops1, List.append_assoc]
        · intro o ho
          rcases List.mem_append.1 ho with h | h
          · exact (hall1 o h).1
          · exact hall2 o h

/-- The delete loop appends only removal operations to the log, all carrying
paths from the leftover list. -/
theorem synchLoop2_ops (fs : List String) :
    ∀ st, ∃ ext, (synchLoop2 fs st).1.ops = st.ops ++ ext ∧
      ∀ o ∈ ext, o.isRemove = true ∧ o.path ∈ fs := by
  induction fs with
  | nil => exact fun st => ⟨[], by simp [synchLoop2], by simp⟩
  | cons s rest ih =>
    intro st
    unfold synchLoop2
    split
    · rename_i st1 e heq
      obtain ⟨e1, hops1, hall1⟩ := remove_file_ops s st
      rw [heq] at hops1
      exact ⟨e1, hops1, fun o ho =>
        ⟨(hall1 o ho).1, by simp [(hall1 o ho).2]⟩⟩
    · rename_i st1 heq
      obtain ⟨e1, hops1, hall1⟩ := remove_file_ops s st
      rw [heq] at hops1
      obtain ⟨e2, hops2, hall2⟩ := ih st1
      refine ⟨e1 ++ e2, by rw [hops2, hops1, List.append_assoc], ?_⟩
      intro o ho
      rcases List.mem_append.1 ho with h | h
      · exact ⟨(hall1 o h).1, by simp [(hall1 o h).2]⟩
      · exact ⟨(hall2 o h).1, by simp [(hall2 o h).2]⟩

/-- C8: within one reconciliation cycle every source-driven create/copy
operation is logged before every replica-driven removal: the operations a
`synch` call appends to the log are a block of copy/create operations
followed by a block of removals, never interleaved. -/
theorem c8_order (src : Option Node) (st : St) :
    ∃ A B, (synch src st).1.ops = st.ops ++ A ++ B ∧
      (∀ o ∈ A, o.isCopyOrCreate = true) ∧
      ∀ o ∈ B, o.isRemove = true := by
  unfold synch
  split
  · rename_i st1 e heq
    obtain ⟨e1, hops1, hall1⟩ := synchLoop1_ops src (get_content_opt src)
      (get_content st.rep) st
    rw [heq] at hops1
    exact ⟨e1, [], by simpa using hops1, hall1, by simp⟩
  · rename_i repLeft st1 heq
    obtain ⟨e1, hops1, hall1⟩ := synchLoop1_ops src (get_content_opt src)
      (get_content st.rep) st
    rw [heq] at hops1
    obtain ⟨e2, hops2, hall2⟩ := synchLoop2_ops repLeft st1
    exact ⟨e1, e2, by rw [hops2, hops1], hall1,
      fun o ho => (hall2 o ho).1⟩

/-- C4 (amended): for a missing root `get_content` raises nothing and
returns the empty listing, and a cycle with a missing source root therefore
performs only delete operations on the replica. -/
theorem c4_amended (st : St) :
    get_content_opt none = [] ∧
    ∃ B, (synch none st).1.ops = st.ops ++ B ∧
      ∀ o ∈ B, o.isRemove = true := by
  refine ⟨rfl, ?_⟩
  obtain ⟨ext, hops, hall⟩ := synchLoop2_ops (get_content st.rep) st
  exact ⟨ext, hops, fun o ho => (hall o ho).1⟩

/-- Looking up a key after appending one binding at the end of the
dictionary: an existing binding shadows the new one. -/
theorem lookupAssoc_append (c : List (String × String)) (s h k : String) :
    lookupAssoc (c ++ [(s, h)]) k =
      match lookupAssoc c k with
      | some v => some v
      | none => if s = k then some h else none := by
  induction c with
  | nil => simp [lookupAssoc]
  | cons x rest ih =>
    obtain ⟨a, b⟩ := x
    by_cases hx : a = k <;> simp [lookupAssoc, hx, ih]

/-- Inserting the digest of a previously uncached replica path preserves the
at-most-once bound. -/
theorem cacheBound_insert (st : St) (s hsh : String)
    (hnone : lookupAssoc st.files_hash s = none) (h : cacheBound st) :
    ∀ k, (st.repHashes ++ [s]).count k ≤
      if (lookupAssoc (st.files_hash ++ [(s, hsh)]) k).isSome then 1 else 0 := by
  intro k
  rw [List.count_append, lookupAssoc_append]
  by_cases hk : s = k
  · subst hk
    have h0 := h s
    rw [hnone] at h0
    simp only [Option.isSome_none, Bool.false_eq_true, if_false,
      Nat.le_zero] at h0
    simp [hnone, h0]
  · have h0 := h k
    rcases hcase : lookupAssoc st.files_hash k with _ | v
    · rw [hcase] at h0
      simp only [Option.isSome_none, Bool.false_eq_true, if_false,
        Nat.le_zero] at h0
      simp [hcase, h0, hk, List.count_singleton', Ne.symm hk]
    · rw [hcase] at h0
      simp only [hcase, Option.isSome_some, if_true] at h0 ⊢
      have : [s].count k = 0 := by
        simp [List.count_singleton, hk]
      omega

/-- The combined fingerprint invariant: every replica path digested at most
once (and only when cached), and one fresh source digest per completed
comparison. -/
def hashInv (st : St) : Prop := cacheBound st ∧ srcFresh st

/-- `compare_hash` preserves the fingerprint invariant. -/
theorem compare_hash_hashInv (src : Option Node) (s : String) (st : St)
    (h : hashInv st) : hashInv (compare_hash src s st).1 := by
  obtain ⟨hc, hf⟩ := h
  unfold compare_hash
  split
  · rename_i hnone
    split
    · exact ⟨hc, hf⟩
    · rename_i hsh hget
      split
      · exact ⟨cacheBound_insert st s hsh hnone hc, hf⟩
      · refine ⟨cacheBound_insert st s hsh hnone hc, ?_⟩
        unfold srcFresh at hf ⊢
        simp [hf]
  · split
    · exact ⟨hc, hf⟩
    · refine ⟨hc, ?_⟩
      unfold srcFresh at hf ⊢
      simp [hf]

/-- `copy_file` preserves the fingerprint invariant (it does not touch the
cache or the instrumentation). -/
theorem copy_file_hashInv (src : Option Node) (s : String) (st : St)
    (h : hashInv st) : hashInv (copy_file src s st).1 := by
  obtain ⟨h1, h2, h3, h4⟩ := copy_file_cache src s st
  exact ⟨fun k => by rw [h2, h1]; exact h.1 k,
    by unfold srcFresh; rw [h3, h4]; exact h.2⟩

/-- `remove_file` preserves the fingerprint invariant. -/
theorem remove_file_hashInv (s : String) (st : St)
    (h : hashInv st) : hashInv (remove_file s st).1 := by
  obtain ⟨h1, h2, h3, h4⟩ := remove_file_cache s st
  exact ⟨fun k => by rw [h2, h1]; exact h.1 k,
    by unfold srcFresh; rw [h3, h4]; exact h.2⟩

/-- The copy/create loop preserves the fingerprint invariant. -/
theorem synchLoop1_hashInv (src : Option Node) (fs : List String) :
    ∀ repList st, hashInv st →
      hashInv (synchLoop1 src fs repList st).2.1 := by
  induction fs with
  | nil => exact fun repList st h => by simpa [synchLoop1] using h
  | cons s rest ih =>
    intro repList st h
    unfold synchLoop1
    split
    · split
      · split
        · rename_i st1 e heq
          have := compare_hash_hashInv src s st h
          rw [heq] at this
          exact this
        · rename_i st1 b heq
          have h1 : hashInv st1 := by
            have := compare_hash_hashInv src s st h
            rw [heq] at this
            exact this
          split
          · exact ih _ st1 h1
          · split
            · rename_i st2 e heq2
              have := copy_file_hashInv src s st1 h1
              rw [heq2] at this
              exact this
            · rename_i st2 heq2
              have h2 : hashInv st2 := by
                have := copy_file_hashInv src s st1 h1
                rw [heq2] at this
                exact this
              exact ih _ st2 h2
      · exact ih _ st h
    · split
      · rename_i st1 e heq
        have := copy_file_hashInv src s st h
        rw [heq] at this
        exact this
      · rename_i st1 heq
        have h1 : hashInv st1 := by
          have := copy_file_hashInv src s st h
          rw [heq] at this
          exact this
        exact ih _ st1 h1

/-- The delete loop preserves the fingerprint invariant. -/
theorem synchLoop2_hashInv (fs : List String) :
    ∀ st, hashInv st → hashInv (synchLoop2 fs st).1 := by
  induction fs with
  | nil => exact fun st h => by simpa [synchLoop2] using h
  | cons s rest ih =>
    intro st h
    unfold synchLoop2
    split
    · rename_i st1 e heq
      have := remove_file_hashInv s st h
      rw [heq] at this
      exact this
    · rename_i st1 heq
      have h1 : hashInv st1 := by
        have := remove_file_hashInv s st h
        rw [heq] at this
        exact this
      exact ih st1 h1

/-- One reconciliation cycle preserves the fingerprint invariant. -/
theorem synch_hashInv (src : Option Node) (st : St) (h : hashInv st) :
    hashInv (synch src st).1 := by
  unfold synch
  split
  · rename_i st1 e heq
    have := synchLoop1_hashInv src (get_content_opt src)
      (get_content st.rep) st h
    rw [heq] at this
    exact this
  · rename_i repLeft st1 heq
    have h1 : hashInv st1 := by
      have := synchLoop1_hashInv src (get_content_opt src)
        (get_content st.rep) st h
      rw [heq] at this
      exact this
    exact synchLoop2_hashInv repLeft st1 h1

/-- Any number of cycles preserves the fingerprint invariant. -/
theorem runCycles_hashInv (n : Nat) (src : Option Node) :
    ∀ st, hashInv st → hashInv (runCycles n src st).1 := by
  induction n with
  | zero => exact fun st h => h
  | succ n ih =>
    intro st h
    unfold runCycles
    split
    · rename_i st1 e heq
      have := synch_hashInv src st h
      rw [heq] at this
      exact this
    · rename_i st1 heq
      have h1 : hashInv st1 := by
        have := synch_hashInv src st h
        rw [heq] at this
        exact this
      exact ih st1 h1

/-- C6: over any number of consecutive reconciliation cycles of a fresh
instance, each replica path has its content digested from disk at most once
(in particular a replica file untouched across N cycles is hashed at most
once), while the source side is digested afresh for every completed
fingerprint comparison: the stream of source digests is exactly the stream
of comparisons. -/
theorem c6_fingerprint_caching (src : Option Node) (rep : Node) (n : Nat)
    (k : String) :
    (runCycles n src (initSt rep)).1.repHashes.count k ≤ 1 ∧
    (runCycles n src (initSt rep)).1.srcHashes =
      (runCycles n src (initSt rep)).1.compares := by
  have h0 : hashInv (initSt rep) := by
    refine ⟨fun k => ?_, rfl⟩
    simp [initSt, lookupAssoc]
  have hinv := runCycles_hashInv n src (initSt rep) h0
  refine ⟨?_, hinv.2⟩
  have := hinv.1 k
  split at this
  · exact this
  · exact Nat.le_trans this (by omega)

/-- Erasing `./` from a string without that substring changes nothing. -/
theorem pyReplaceChars_of_no_ds :
    ∀ l : List Char, hasDS l = false → pyReplaceChars l = l := by
  intro l
  induction l with
  | nil => intro _; rfl
  | cons c1 t ih =>
    cases t with
    | nil => intro _; rfl
    | cons c2 rest =>
      intro h
      rw [hasDS, Bool.or_eq_false_iff] at h
      obtain ⟨h1, h2⟩ := h
      rw [pyReplaceChars, if_neg (by simp [h1]), ih h2]

mutual

/-- Every path produced below prefix `q` extends `q` by at least one
component. -/
theorem walkPathsNode_shape (q p : List String) (n : Node)
    (h : p ∈ walkPathsNode q n) : ∃ nm s, p = q ++ nm :: s := by
  match n with
  | .file _ _ => simp [walkPathsNode] at h
  | .dir es dm =>
    rw [walkPathsNode, List.mem_append] at h
    rcases h with h | h
    · obtain ⟨nm, hnm, rfl⟩ := List.mem_map.1 h
      exact ⟨nm, [], rfl⟩
    · obtain ⟨nm, s, hp, _, _⟩ := walkPathsSub_shape q p es h
      exact ⟨nm, s, hp⟩

/-- Every path produced by the subtree traversal extends `q` by at least two
components, the first of which is the name of a subdirectory. -/
theorem walkPathsSub_shape (q p : List String) (es : Entries)
    (h : p ∈ walkPathsSub q es) :
    ∃ nm s, p = q ++ nm :: s ∧ s ≠ [] ∧ nm ∈ dirNamesE es := by
  match es with
  | .nil => simp [walkPathsSub] at h
  | .cons nm0 (.dir cs dm) rest =>
    rw [walkPathsSub, List.mem_append] at h
    rcases h with h | h
    · obtain ⟨nm2, s2, hp⟩ := walkPathsNode_shape (q ++ [nm0]) p (.dir cs dm) h
      exact ⟨nm0, nm2 :: s2, by simpa using hp, by simp, by simp [dirNamesE]⟩
    · obtain ⟨nm2, s2, hp, hne, hmem⟩ := walkPathsSub_shape q p rest h
      exact ⟨nm2, s2, hp, hne, by simp [dirNamesE, hmem]⟩
  | .cons nm0 (.file c m) rest =>
    rw [walkPathsSub] at h
    obtain ⟨nm2, s2, hp, hne, hmem⟩ := walkPathsSub_shape q p rest h
    exact ⟨nm2, s2, hp, hne, by simp [dirNamesE, hmem]⟩

end

/-- C9 (amended): `get_content` erases every `./` substring of the joined
relative path; for an entry whose relative path contains no `./` substring,
the listed string is exactly the relative path (the leading `"./"` of
top-level entries is erased by the same replacement). -/
theorem c9_amended (t : Node) (p : List String)
    (hp : p ∈ walkPaths t) (hds : hasDS (joinComps p).data = false) :
    entryString p = joinComps p ∧ joinComps p ∈ get_content t := by
  obtain ⟨nm, s, hshape⟩ := walkPathsNode_shape [] p t hp
  rw [List.nil_append] at hshape
  subst hshape
  have hent : entryString (nm :: s) = joinComps (nm :: s) := by
    cases s with
    | nil =>
      show String.mk (pyReplaceChars ('.' :: '/' :: nm.data)) = nm
      rw [pyReplaceChars, if_pos (by simp), pyReplaceChars_of_no_ds nm.data hds]
    | cons x s2 =>
      show String.mk (pyReplaceChars (joinComps (nm :: x :: s2)).data)
        = joinComps (nm :: x :: s2)
      rw [pyReplaceChars_of_no_ds _ hds]
  exact ⟨hent, by rw [← hent]; exact List.mem_map_of_mem _ hp⟩

/-- C9 amended, witness: the depth-one entry `a.` of the counterexample tree
is listed exactly as its relative path. -/
theorem c9_amended_witness :
    (["a."] ∈ walkPaths c9Tree) ∧ hasDS (joinComps ["a."]).data = false ∧
    (entryString ["a."] = joinComps ["a."] ∧
      joinComps ["a."] ∈ get_content c9Tree) :=
  ⟨by decide, by decide, c9_amended c9Tree ["a."] (by decide) (by decide)⟩

/-- A path that resolves to a directory does not satisfy `os.path.isfile`. -/
theorem isDir_not_isFile (o : Option Node) (p : List String)
    (h : isDirPath o p = true) : isFilePath o p = false := by
  unfold isDirPath at h
  unfold isFilePath
  revert h
  generalize lookupOpt o p = r
  intro h
  cases r with
  | none => exact Bool.noConfusion h
  | some n =>
    cases n with
    | file c m => exact Bool.noConfusion h
    | dir es dm => rfl

/-- Removing the first occurrence drops the count of that element by one. -/
theorem removeFirst_count_self (l : List String) (s : String) :
    (removeFirst l s).count s = l.count s - 1 := by
  induction l with
  | nil => rfl
  | cons x rest ih =>
    by_cases hx : x = s
    · subst hx
      simp [removeFirst, List.count_cons]
    · simp [removeFirst, hx, List.count_cons, ih]

/-- Removing the first occurrence of one element leaves the count of any
other element unchanged. -/
theorem removeFirst_count_ne (l : List String) (rm cnt : String)
    (h : cnt ≠ rm) : (removeFirst l rm).count cnt = l.count cnt := by
  induction l with
  | nil => rfl
  | cons x rest ih =>
    by_cases hx : x = rm
    · subst hx
      simp [removeFirst, List.count_cons, Ne.symm h]
    · simp [removeFirst, hx, List.count_cons, ih]

/-- Counting an element not at the head skips the head. -/
theorem count_cons_ne (f s : String) (rest : List String) (h : f ≠ s) :
    (f :: rest).count s = rest.count s := by
  simp [List.count_cons, h]

/-- Counting the head element. -/
theorem count_cons_self (f : String) (rest : List String) :
    (f :: rest).count f = rest.count f + 1 := by
  simp [List.count_cons]

/-- Removing the first occurrence never increases any count. -/
theorem removeFirst_count_le (l : List String) (rm cnt : String) :
    (removeFirst l rm).count cnt ≤ l.count cnt := by
  by_cases h : cnt = rm
  · subst h
    rw [removeFirst_count_self]
    exact Nat.sub_le _ _
  · rw [removeFirst_count_ne l rm cnt h]

/-- `compare_hash` extends the comparison stream by at most its own path. -/
theorem compare_hash_compares (src : Option Node) (s : String) (st : St) :
    (compare_hash src s st).1.compares = st.compares ∨
    (compare_hash src s st).1.compares = st.compares ++ [s] := by
  unfold compare_hash
  split
  · split
    · exact Or.inl rfl
    · split
      · exact Or.inl rfl
      · exact Or.inr rfl
  · split
    · exact Or.inl rfl
    · exact Or.inr rfl

/-- The delete loop does not touch the comparison stream. -/
theorem synchLoop2_compares (fs : List String) :
    ∀ st, (synchLoop2 fs st).1.compares = st.compares := by
  induction fs with
  | nil => exact fun st => rfl
  | cons s rest ih =>
    intro st
    unfold synchLoop2
    split
    · rename_i st1 e heq
      have := (remove_file_cache s st).2.2.2
      rw [heq] at this
      exact this
    · rename_i st1 heq
      have h1 := (remove_file_cache s st).2.2.2
      rw [heq] at h1
      rw [ih st1, h1]

/-- Invariant of the copy/create loop for a source directory entry `s` that
is present in the working replica list: provided `s` occurs at most once in
the remaining source listing and in the working list, the loop never logs an
operation carrying path `s`, every completed comparison is of an entry whose
source path is a plain file, and when the loop finishes without error the
occurrence of `s` has been consumed from the leftover list. -/
theorem synchLoop1_c7 (src : Option Node) (s : String)
    (hdir : isDirPath src (splitPath s) = true) :
    ∀ (fs repList : List String) (st : St),
      fs.count s ≤ 1 →
      repList.count s ≤ 1 →
      (s ∈ fs → s ∈ repList) →
      (∀ o ∈ st.ops, o.path ≠ s) →
      (∀ x ∈ st.compares, isFilePath src (splitPath x) = true) →
      (∀ o ∈ (synchLoop1 src fs repList st).2.1.ops, o.path ≠ s) ∧
      (∀ x ∈ (synchLoop1 src fs repList st).2.1.compares,
          isFilePath src (splitPath x) = true) ∧
      ((synchLoop1 src fs repList st).2.2 = none →
        (s ∈ fs → (synchLoop1 src fs repList st).1.count s = 0) ∧
        (synchLoop1 src fs repList st).1.count s ≤ repList.count s) := by
  intro fs
  induction fs with
  | nil =>
    intro repList st _ _ _ hops hcmp
    refine ⟨by simpa [synchLoop1] using hops,
      by simpa [synchLoop1] using hcmp, fun _ => ?_⟩
    refine ⟨fun h => absurd h (List.not_mem_nil s), ?_⟩
    simp [synchLoop1]
  | cons f rest ih =>
    intro repList st hfs hrl hmem hops hcmp
    unfold synchLoop1
    by_cases hcon : repList.contains f = true
    · rw [if_pos hcon]
      by_cases hfile : isFilePath src (splitPath f) = true
      · rw [if_pos hfile]
        have hfns : f ≠ s := by
          intro hEq
          rw [hEq] at hfile
          rw [isDir_not_isFile src (splitPath s) hdir] at hfile
          exact Bool.false_ne_true hfile
        have hfs2 : rest.count s ≤ 1 := by
          have h2 := hfs
          rw [count_cons_ne f s rest hfns] at h2
          exact h2
        have hrl2 : (removeFirst repList f).count s ≤ 1 := by
          rw [removeFirst_count_ne repList f s (Ne.symm hfns)]
          exact hrl
        have hmem2 : s ∈ rest → s ∈ removeFirst repList f := by
          intro hsr
          have hsrep : s ∈ repList := hmem (List.mem_cons_of_mem f hsr)
          have : 0 < (removeFirst repList f).count s := by
            rw [removeFirst_count_ne repList f s (Ne.symm hfns)]
            exact List.count_pos_iff.2 hsrep
          exact List.count_pos_iff.1 this
        rcases hch : compare_hash src f st with ⟨st1, res⟩
        have hst1ops : st1.ops = st.ops := by
          have h5 := (compare_hash_state src f st).1
          rw [hch] at h5
          exact h5
        have hst1cmp : ∀ x ∈ st1.compares,
            isFilePath src (splitPath x) = true := by
          have h5 := compare_hash_compares src f st
          rw [hch] at h5
          rcases h5 with h | h
          · intro x hx
            rw [h] at hx
            exact hcmp x hx
          · intro x hx
            rw [h] at hx
            rcases List.mem_append.1 hx with h2 | h2
            · exact hcmp x h2
            · rw [List.mem_singleton.1 h2]
              exact hfile
        cases res with
        | error e =>
          dsimp only
          refine ⟨?_, ?_, ?_⟩
          · intro o ho
            rw [hst1ops] at ho
            exact hops o ho
          · exact hst1cmp
          · intro h
            exact absurd h (by simp)
        | ok b =>
          cases b with
          | true =>
            dsimp only
            rw [if_pos rfl]
            have hops1 : ∀ o ∈ st1.ops, o.path ≠ s := by
              intro o ho
              rw [hst1ops] at ho
              exact hops o ho
            have := ih (removeFirst repList f) st1 hfs2 hrl2 hmem2 hops1 hst1cmp
            refine ⟨this.1, this.2.1, fun hnone => ?_⟩
            have h3 := this.2.2 hnone
            refine ⟨?_, Nat.le_trans h3.2 (removeFirst_count_le repList f s)⟩
            intro hsfs
            rcases List.mem_cons.1 hsfs with h | h
            · exact absurd h.symm hfns
            · exact h3.1 h
          | false =>
            dsimp only
            rw [if_neg Bool.false_ne_true]
            rcases hcp : copy_file src f st1 with ⟨st2, cres⟩
            obtain ⟨ext, hext, hextall⟩ := copy_file_ops src f st1
            rw [hcp] at hext
            dsimp only at hext
            have hops2 : ∀ o ∈ st2.ops, o.path ≠ s := by
              intro o ho
              rw [hext] at ho
              rcases List.mem_append.1 ho with h | h
              · rw [hst1ops] at h
                exact hops o h
              · rw [(hextall o h).2]
                exact hfns
            have hcmp2 : ∀ x ∈ st2.compares,
                isFilePath src (splitPath x) = true := by
              have h5 := (copy_file_cache src f st1).2.2.2
              rw [hcp] at h5
              dsimp only at h5
              intro x hx
              rw [h5] at hx
              exact hst1cmp x hx
            cases cres with
            | some e =>
              dsimp only
              refine ⟨hops2, hcmp2, fun h => absurd h (by simp)⟩
            | none =>
              dsimp only
              have := ih (removeFirst repList f) st2 hfs2 hrl2 hmem2 hops2 hcmp2
              refine ⟨this.1, this.2.1, fun hnone => ?_⟩
              have h3 := this.2.2 hnone
              refine ⟨?_, Nat.le_trans h3.2 (removeFirst_count_le repList f s)⟩
              intro hsfs
              rcases List.mem_cons.1 hsfs with h | h
              · exact absurd h.symm hfns
              · exact h3.1 h
      · rw [if_neg hfile]
        by_cases hfseq : f = s
        · subst hfseq
          have hcc : (f :: rest).count f = rest.count f + 1 :=
            count_cons_self f rest
          have hfs2 : rest.count f = 0 := by omega
          have hnotin : f ∉ rest := List.count_eq_zero.1 hfs2
          have hrl2 : (removeFirst repList f).count f ≤ 1 := by
            rw [removeFirst_count_self]
            omega
          have hmem2 : f ∈ rest → f ∈ removeFirst repList f :=
            fun h => absurd h hnotin
          have hih := ih (removeFirst repList f) st (by omega) hrl2 hmem2
            hops hcmp
          refine ⟨hih.1, hih.2.1, fun hnone => ?_⟩
          have h3 := hih.2.2 hnone
          have hsrep : f ∈ repList := hmem (List.mem_cons_self f rest)
          have hone : 0 < repList.count f := List.count_pos_iff.2 hsrep
          have hzero : (removeFirst repList f).count f = 0 := by
            rw [removeFirst_count_self]
            omega
          have h32 := h3.2
          rw [hzero] at h32
          exact ⟨fun _ => by omega,
            Nat.le_trans h3.2 (removeFirst_count_le repList f f)⟩
        · have hfs2 : rest.count s ≤ 1 := by
            have h2 := hfs
            rw [count_cons_ne f s rest hfseq] at h2
            exact h2
          have hrl2 : (removeFirst repList f).count s ≤ 1 := by
            rw [removeFirst_count_ne repList f s (Ne.symm hfseq)]
            exact hrl
          have hmem2 : s ∈ rest → s ∈ removeFirst repList f := by
            intro hsr
            have hsrep : s ∈ repList := hmem (List.mem_cons_of_mem f hsr)
            have : 0 < (removeFirst repList f).count s := by
              rw [removeFirst_count_ne repList f s (Ne.symm hfseq)]
              exact List.count_pos_iff.2 hsrep
            exact List.count_pos_iff.1 this
          have := ih (removeFirst repList f) st hfs2 hrl2 hmem2 hops hcmp
          refine ⟨this.1, this.2.1, fun hnone => ?_⟩
          have h3 := this.2.2 hnone
          refine ⟨?_, Nat.le_trans h3.2 (removeFirst_count_le repList f s)⟩
          intro hsfs
          rcases List.mem_cons.1 hsfs with h | h
          · exact absurd h.symm hfseq
          · exact h3.1 h
    · rw [if_neg hcon]
      have hfns : f ≠ s := by
        intro hEq
        subst hEq
        exact hcon (by simpa using hmem (List.mem_cons_self f rest))
      have hfs2 : rest.count s ≤ 1 := by
        have h2 := hfs
        rw [count_cons_ne f s rest hfns] at h2
        exact h2
      have hmem2 : s ∈ rest → s ∈ repList :=
        fun h => hmem (List.mem_cons_of_mem f h)
      rcases hcp : copy_file src f st with ⟨st1, cres⟩
      obtain ⟨ext, hext, hextall⟩ := copy_file_ops src f st
      rw [hcp] at hext
      dsimp only at hext
      have hops1 : ∀ o ∈ st1.ops, o.path ≠ s := by
        intro o ho
        rw [hext] at ho
        rcases List.mem_append.1 ho with h | h
        · exact hops o h
        · rw [(hextall o h).2]
          exact hfns
      have hcmp1 : ∀ x ∈ st1.compares,
          isFilePath src (splitPath x) = true := by
        have h5 := (copy_file_cache src f st).2.2.2
        rw [hcp] at h5
        dsimp only at h5
        intro x hx
        rw [h5] at hx
        exact hcmp x hx
      cases cres with
      | some e =>
        dsimp only
        refine ⟨hops1, hcmp1, fun h => absurd h (by simp)⟩
      | none =>
        dsimp only
        have := ih repList st1 hfs2 hrl hmem2 hops1 hcmp1
        refine ⟨this.1, this.2.1, fun hnone => ?_⟩
        have h3 := this.2.2 hnone
        refine ⟨?_, h3.2⟩
        intro hsfs
        rcases List.mem_cons.1 hsfs with h | h
        · exact absurd h.symm hfns
        · exact h3.1 h

/-- C7 (amended): when the two listings are duplicate-free (no `"./"`
collision), a source directory entry that is present by name in the replica
listing triggers no operation and no fingerprint comparison, and every
completed fingerprint comparison of the cycle is of an entry whose source
path is a plain file. -/
theorem c7_amended (src : Node) (st : St) (s : String)
    (hnds : (get_content src).Nodup)
    (hndr : (get_content st.rep).Nodup)
    (hs : s ∈ get_content src)
    (hdir : isDirPath (some src) (splitPath s) = true)
    (hr : s ∈ get_content st.rep)
    (hops : st.ops = [])
    (hcmp : st.compares = []) :
    (∀ o ∈ (synch (some src) st).1.ops, o.path ≠ s) ∧
    (synch (some src) st).1.compares.count s = 0 ∧
    ∀ x ∈ (synch (some src) st).1.compares,
      isFilePath (some src) (splitPath x) = true := by
  have hfs1 : (get_content src).count s ≤ 1 :=
    List.nodup_iff_count_le_one.1 hnds s
  have hrl1 : (get_content st.rep).count s ≤ 1 :=
    List.nodup_iff_count_le_one.1 hndr s
  have hops0 : ∀ o ∈ st.ops, o.path ≠ s := by
    rw [hops]
    intro o ho
    exact absurd ho (List.not_mem_nil o)
  have hcmp0 : ∀ x ∈ st.compares,
      isFilePath (some src) (splitPath x) = true := by
    rw [hcmp]
    intro x hx
    exact absurd hx (List.not_mem_nil x)
  have hloop := synchLoop1_c7 (some src) s hdir (get_content src)
    (get_content st.rep) st hfs1 hrl1 (fun _ => hr) hops0 hcmp0
  have hnotfile : ¬ isFilePath (some src) (splitPath s) = true := by
    rw [isDir_not_isFile (some src) (splitPath s) hdir]
    exact Bool.false_ne_true
  unfold synch
  simp only [get_content_opt]
  split
  · rename_i st1 e heq
    rw [heq] at hloop
    dsimp only at hloop ⊢
    refine ⟨hloop.1, ?_, hloop.2.1⟩
    refine List.count_eq_zero.2 ?_
    intro hmem
    exact hnotfile (hloop.2.1 s hmem)
  · rename_i repLeft st1 heq
    rw [heq] at hloop
    dsimp only at hloop
    obtain ⟨ext, hext, hextall⟩ := synchLoop2_ops repLeft st1
    have hnone := hloop.2.2 rfl
    have hcnt0 : repLeft.count s = 0 := hnone.1 hs
    have hsnotin : s ∉ repLeft := List.count_eq_zero.1 hcnt0
    refine ⟨?_, ?_, ?_⟩
    · intro o ho
      rw [hext] at ho
      rcases List.mem_append.1 ho with h | h
      · exact hloop.1 o h
      · intro hEq
        exact hsnotin (hEq ▸ (hextall o h).2)
    · rw [synchLoop2_compares repLeft st1]
      refine List.count_eq_zero.2 ?_
      intro hmem
      exact hnotfile (hloop.2.1 s hmem)
    · intro x hx
      rw [synchLoop2_compares repLeft st1] at hx
      exact hloop.2.1 x hx

/-- C7 amended, witness: a cycle over identical one-directory trees performs
no fingerprint comparison of the directory entry `d`. -/
theorem c7_amended_witness :
    (synch (some (Node.dir (.cons "d" (.dir .nil 0) .nil) 0))
      (initSt (Node.dir (.cons "d" (.dir .nil 0) .nil) 0))).1.compares.count
      "d" = 0 :=
  (c7_amended (Node.dir (.cons "d" (.dir .nil 0) .nil) 0)
    (initSt (Node.dir (.cons "d" (.dir .nil 0) .nil) 0)) "d"
    (by decide) (by decide) (by decide) (by decide) (by decide) rfl rfl).2.1

/-- A strict descendant is strictly longer. -/
theorem descends_length {a b : List String} (h : descends a b) :
    b.length < a.length := by
  obtain ⟨s, hs, rfl⟩ := h
  have hpos : 0 < s.length := List.length_pos.2 hs
  rw [List.length_append]
  omega

/-- Subdirectory names are directory entry names. -/
theorem dirNames_mem_names (es : Entries) :
    ∀ nm ∈ dirNamesE es, nm ∈ namesE es := by
  match es with
  | .nil => intro nm h; exact absurd h (by simp [dirNamesE])
  | .cons nm0 (.dir cs dm) rest =>
    intro nm h
    rw [dirNamesE] at h
    rcases List.mem_cons.1 h with h | h
    · simp [namesE, h]
    · simp [namesE, dirNames_mem_names rest nm h]
  | .cons nm0 (.file c m) rest =>
    intro nm h
    rw [dirNamesE] at h
    simp [namesE, dirNames_mem_names rest nm h]

/-- Splitting the duplicate-freedom of a name list at its head. -/
theorem nodupB_head (nm : String) (rest : List String)
    (h : nodupB (nm :: rest) = true) :
    rest.contains nm = false ∧ nodupB rest = true := by
  rw [nodupB] at h
  rw [Bool.and_eq_true] at h
  obtain ⟨h1, h2⟩ := h
  exact ⟨by simpa using h1, h2⟩

/-- A child found by name in a uniquely-named tree is uniquely named. -/
theorem uniqE_lookup (es : Entries) (nm : String) (c : Node)
    (hu : uniqE es = true) (h : lookupE es nm = some c) : uniqN c = true := by
  match es with
  | .nil => simp [lookupE] at h
  | .cons nm0 n rest =>
    rw [uniqE] at hu
    rw [Bool.and_eq_true] at hu
    obtain ⟨h1, h2⟩ := hu
    rw [lookupE] at h
    by_cases h0 : nm0 = nm
    · rw [if_pos h0] at h
      injection h with h
      rw [← h]
      exact h1
    · rw [if_neg h0] at h
      exact uniqE_lookup rest nm c h2 h

mutual

/-- In the `os.walk` listing of a uniquely-named tree, no entry strictly
below another entry is listed before it: parents always precede their
descendants (the traversal is top-down). -/
theorem pairwise_walkNode (p : List String) (n : Node)
    (hu : uniqN n = true) :
    (walkPathsNode p n).Pairwise (fun a b => ¬ descends a b) := by
  match n with
  | .file c m =>
    rw [walkPathsNode]
    exact List.Pairwise.nil
  | .dir es dm =>
    rw [uniqN] at hu
    rw [Bool.and_eq_true] at hu
    obtain ⟨hnd, hue⟩ := hu
    rw [walkPathsNode, List.pairwise_append]
    refine ⟨?_, pairwise_walkSub p es hnd hue, ?_⟩
    · refine List.pairwise_map.2 (List.pairwise_of_forall ?_)
      intro n1 n2 hd
      have h1 := descends_length hd
      simp [List.length_append] at h1
    · intro a ha b hb hd
      obtain ⟨n1, hn1, rfl⟩ := List.mem_map.1 ha
      obtain ⟨nm2, s2, hb2, hne2, _⟩ := walkPathsSub_shape p b es hb
      subst hb2
      have hlen := descends_length hd
      simp [List.length_append] at hlen

/-- Pairwise no-descendant-first for the subtree traversal. -/
theorem pairwise_walkSub (p : List String) (es : Entries)
    (hnd : nodupB (namesE es) = true) (hue : uniqE es = true) :
    (walkPathsSub p es).Pairwise (fun a b => ¬ descends a b) := by
  match es with
  | .nil =>
    rw [walkPathsSub]
    exact List.Pairwise.nil
  | .cons nm0 (.dir cs dm) rest =>
    rw [uniqE] at hue
    rw [Bool.and_eq_true] at hue
    obtain ⟨hun, hur⟩ := hue
    rw [namesE] at hnd
    obtain ⟨hcon, hndr⟩ := nodupB_head nm0 (namesE rest) hnd
    rw [walkPathsSub, List.pairwise_append]
    refine ⟨pairwise_walkNode (p ++ [nm0]) (.dir cs dm) hun,
      pairwise_walkSub p rest hndr hur, ?_⟩
    intro a ha b hb hd
    obtain ⟨nm1, s1, ha2⟩ := walkPathsNode_shape (p ++ [nm0]) a (.dir cs dm) ha
    obtain ⟨nm2, s2, hb2, hne2, hmem2⟩ := walkPathsSub_shape p b rest hb
    obtain ⟨u, hu0, hau⟩ := hd
    rw [ha2, hb2] at hau
    rw [List.append_assoc, List.append_assoc, List.singleton_append,
      List.cons_append] at hau
    have hheads := List.head_eq_of_cons_eq (List.append_cancel_left hau)
    rw [hheads] at hcon
    have : (namesE rest).contains nm2 = true := by
      simpa using dirNames_mem_names rest nm2 hmem2
    rw [this] at hcon
    exact Bool.noConfusion hcon
  | .cons nm0 (.file c m) rest =>
    rw [uniqE] at hue
    rw [Bool.and_eq_true] at hue
    obtain ⟨_, hur⟩ := hue
    rw [namesE] at hnd
    obtain ⟨_, hndr⟩ := nodupB_head nm0 (namesE rest) hnd
    rw [walkPathsSub]
    exact pairwise_walkSub p rest hndr hur

end

/-- Among the entries the subtree traversal of `es` below `p` produces, the
ones whose parent is `p ++ nm :: q2` all come from the subtree of the unique
subdirectory named `nm`. -/
theorem filter_walkSub (es : Entries) (p : List String) (nm : String)
    (q2 : List String) (hnd : nodupB (namesE es) = true)
    (cs : Entries) (dm : Nat)
    (hlk : lookupE es nm = some (.dir cs dm)) :
    (walkPathsSub p es).filter (fun a => a.dropLast == p ++ nm :: q2) =
      (walkPathsNode (p ++ [nm]) (.dir cs dm)).filter
        (fun a => a.dropLast == p ++ nm :: q2) := by
  match es with
  | .nil => simp [lookupE] at hlk
  | .cons nm0 (.dir cs0 dm0) rest =>
    rw [namesE] at hnd
    obtain ⟨hcon, hndr⟩ := nodupB_head nm0 (namesE rest) hnd
    rw [walkPathsSub, List.filter_append]
    by_cases h0 : nm0 = nm
    · subst h0
      rw [lookupE, if_pos rfl] at hlk
      injection hlk with hlk
      have hrest : (walkPathsSub p rest).filter
          (fun a => a.dropLast == p ++ nm0 :: q2) = [] := by
        rw [List.filter_eq_nil_iff]
        intro a ha
        obtain ⟨nm2, s2, ha2, hne2, hmem2⟩ := walkPathsSub_shape p a rest ha
        subst ha2
        rw [List.dropLast_append_of_ne_nil p (by simp),
          List.dropLast_cons_of_ne_nil hne2]
        intro hbeq
        have heq := List.append_cancel_left (beq_iff_eq.1 hbeq)
        have hh := List.head_eq_of_cons_eq heq
        rw [hh] at hmem2
        have : (namesE rest).contains nm0 = true := by
          simpa using dirNames_mem_names rest nm0 hmem2
        rw [this] at hcon
        exact Bool.noConfusion hcon
      rw [hlk, hrest, List.append_nil]
    · rw [lookupE, if_neg h0] at hlk
      have hpart : (walkPathsNode (p ++ [nm0]) (.dir cs0 dm0)).filter
          (fun a => a.dropLast == p ++ nm :: q2) = [] := by
        rw [List.filter_eq_nil_iff]
        intro a ha
        obtain ⟨nm1, s1, ha2⟩ :=
          walkPathsNode_shape (p ++ [nm0]) a (.dir cs0 dm0) ha
        subst ha2
        rw [List.append_assoc, List.singleton_append,
          List.dropLast_append_of_ne_nil p (by simp),
          List.dropLast_cons_of_ne_nil (by simp)]
        intro hbeq
        have heq := List.append_cancel_left (beq_iff_eq.1 hbeq)
        exact h0 (List.head_eq_of_cons_eq heq)
      rw [hpart, List.nil_append]
      exact filter_walkSub rest p nm q2 hndr cs dm hlk
  | .cons nm0 (.file c m) rest =>
    rw [namesE] at hnd
    obtain ⟨hcon, hndr⟩ := nodupB_head nm0 (namesE rest) hnd
    rw [walkPathsSub]
    rw [lookupE] at hlk
    by_cases h0 : nm0 = nm
    · rw [if_pos h0] at hlk
      injection hlk with hlk
      exact Node.noConfusion hlk
    · rw [if_neg h0] at hlk
      exact filter_walkSub rest p nm q2 hndr cs dm hlk

/-- In the `os.walk` listing below prefix `p` of a uniquely-named tree, the
entries whose parent is the directory at `q` are exactly that directory's
subdirectory names followed by its file names, in directory order. -/
theorem filter_walkNode (q : List String) :
    ∀ (n : Node) (p : List String), uniqN n = true →
    ∀ (es : Entries) (dm : Nat), lookupPath n q = some (.dir es dm) →
    (walkPathsNode p n).filter (fun a => a.dropLast == p ++ q) =
      (dirNamesE es ++ fileNamesE es).map (fun nm => (p ++ q) ++ [nm]) := by
  induction q with
  | nil =>
    intro n p hu es dm hlk
    have hn : n = .dir es dm := by
      have h2 : some n = some (.dir es dm) := hlk
      injection h2
    subst hn
    rw [walkPathsNode, List.filter_append]
    have hblock : (((dirNamesE es ++ fileNamesE es).map
        (fun nm => p ++ [nm])).filter (fun a => a.dropLast == p ++ [])) =
        (dirNamesE es ++ fileNamesE es).map (fun nm => p ++ [nm]) := by
      rw [List.filter_eq_self]
      intro a ha
      obtain ⟨nm1, _, rfl⟩ := List.mem_map.1 ha
      simp [List.dropLast_concat]
    have hsub : (walkPathsSub p es).filter
        (fun a => a.dropLast == p ++ []) = [] := by
      rw [List.filter_eq_nil_iff]
      intro a ha
      obtain ⟨nm2, s2, ha2, hne2, _⟩ := walkPathsSub_shape p a es ha
      subst ha2
      rw [List.dropLast_append_of_ne_nil p (by simp),
        List.dropLast_cons_of_ne_nil hne2]
      simp
    rw [hblock, hsub, List.append_nil]
    simp
  | cons nm q2 ihq =>
    intro n p hu es dm hlk
    match n with
    | .file c m => exact Option.noConfusion hlk
    | .dir es0 dm0 =>
      rw [uniqN] at hu
      rw [Bool.and_eq_true] at hu
      obtain ⟨hnd, hue⟩ := hu
      rcases hle : lookupE es0 nm with _ | c
      · rw [lookupPath, hle] at hlk
        exact Option.noConfusion hlk
      · rw [lookupPath, hle] at hlk
        match c with
        | .file cc mm =>
          cases q2 with
          | nil =>
            have hcc : Node.file cc mm = Node.dir es dm := by
              have h2 : some (Node.file cc mm) = some (.dir es dm) := hlk
              injection h2
            exact Node.noConfusion hcc
          | cons a b => exact Option.noConfusion hlk
        | .dir cs dm2 =>
          have huc : uniqN (.dir cs dm2) = true :=
            uniqE_lookup es0 nm _ hue hle
          rw [walkPathsNode, List.filter_append]
          have hblock : (((dirNamesE es0 ++ fileNamesE es0).map
              (fun nm2 => p ++ [nm2])).filter
              (fun a => a.dropLast == p ++ nm :: q2)) = [] := by
            rw [List.filter_eq_nil_iff]
            intro a ha
            obtain ⟨nm1, _, rfl⟩ := List.mem_map.1 ha
            rw [List.dropLast_concat]
            intro hbeq
            have hbe := beq_iff_eq.1 hbeq
            have h2 := List.append_right_eq_self.1 hbe.symm
            exact List.noConfusion h2
          rw [hblock, List.nil_append]
          rw [filter_walkSub es0 p nm q2 hnd cs dm2 hle]
          have hrec := ihq (.dir cs dm2) (p ++ [nm]) huc es dm hlk
          rw [List.append_assoc, List.singleton_append] at hrec
          exact hrec

/-- C10: in every listing produced by the traversal underlying
`get_content` (on a tree whose directories have pairwise-distinct child
names, as real directories do), no entry is listed before an entry it lies
strictly below — parents always precede their children — and the entries of
any one parent directory are exactly its subdirectory names followed by its
plain-file names, in directory order.  `get_content` is the image of this
listing under `entryString`, so the listing order is never
child-before-parent. -/
theorem c10_order (t : Node) (hu : uniqN t = true) :
    (walkPaths t).Pairwise (fun a b => ¬ descends a b) ∧
    (∀ (q : List String) (es : Entries) (dm : Nat),
      lookupPath t q = some (.dir es dm) →
      (walkPaths t).filter (fun a => a.dropLast == q) =
        (dirNamesE es ++ fileNamesE es).map (fun nm => q ++ [nm])) ∧
    get_content t = (walkPaths t).map entryString := by
  refine ⟨pairwise_walkNode [] t hu, ?_, rfl⟩
  intro q es dm hlk
  have h2 := filter_walkNode q t [] hu es dm hlk
  simpa using h2

/-- C10 witness: the ordering facts hold for a two-level tree with a
subdirectory and a file. -/
theorem c10_order_witness :
    (walkPaths (Node.dir (.cons "d" (.dir (.cons "h" (.file "y" 0) .nil) 0)
        (.cons "f" (.file "x" 0) .nil)) 0)).Pairwise
      (fun a b => ¬ descends a b) :=
  (c10_order (Node.dir (.cons "d" (.dir (.cons "h" (.file "y" 0) .nil) 0)
    (.cons "f" (.file "x" 0) .nil)) 0) (by decide)).1

end FolderSynch
